import Mathlib

/-!
Verification of the Monte Carlo realized-volatility estimator
(src/Realized_Vol_Python.py) against its natural-language specification.

The numeric computations of the source are embedded over the real numbers:
numpy float arithmetic is idealized as exact real arithmetic, np.log as
Real.log and np.sqrt as Real.sqrt.  Randomness is made explicit: every call
of np.random.choice(n - 2, size=5, replace=False) is represented by a draw
parameter, a list of natural numbers; by the contract of np.random.choice a
draw actually produced at runtime has 5 pairwise distinct elements below
n - 2 (the predicate validDraw below), and np.random.choice raises a
ValueError when the population n - 2 is smaller than the sample size 5.
An exception escaping a function is modelled by the Except error branch.
-/

namespace RealizedVol

/-- One trading day as handed to the scheduler: its date (encoded as a
natural number), the chronologically ordered intraday price sequence, the
start-of-day and end-of-day anchor prices, and one index draw per Monte
Carlo trial. -/
structure DayEntry where
  date : ℕ
  prices : List ℝ
  sod : ℝ
  eod : ℝ
  draws : List (List ℕ)

/-- Mean of a list of reals, as np.mean computes it: sum divided by length. -/
noncomputable def listMean (xs : List ℝ) : ℝ := xs.sum / (xs.length : ℝ)

/-- The index list used by one trial: the raw draw shifted by one into the
interior range and sorted ascending, mirroring the source line
random_indices = np.sort(np.random.choice(len(prices) - 2, size=5, replace=False) + 1). -/
def random_indices (draw : List ℕ) : List ℕ :=
  List.insertionSort (· ≤ ·) (draw.map (fun i => i + 1))

/-- What np.random.choice(n - 2, size=5, replace=False) guarantees about the
draw it returns: 5 pairwise distinct values, each below n - 2. -/
def validDraw (n : ℕ) (draw : List ℕ) : Prop :=
  draw.length = 5 ∧ draw.Nodup ∧ ∀ i ∈ draw, i < n - 2

instance (n : ℕ) (draw : List ℕ) : Decidable (validDraw n draw) :=
  inferInstanceAs (Decidable (_ ∧ _ ∧ _))

/-- The six chained log-returns of one trial, from the selected prices
p1..p5 at the given sorted interior indices together with the two anchors,
mirroring source line 84:
np.log([p1 / sod, p2 / p1, p3 / p2, p4 / p3, p5 / p4, eod / p5]). -/
noncomputable def logReturns (prices : List ℝ) (sod eod : ℝ) (idxs : List ℕ) : List ℝ :=
  [Real.log (prices.getD (idxs.getD 0 0) 0 / sod),
   Real.log (prices.getD (idxs.getD 1 0) 0 / prices.getD (idxs.getD 0 0) 0),
   Real.log (prices.getD (idxs.getD 2 0) 0 / prices.getD (idxs.getD 1 0) 0),
   Real.log (prices.getD (idxs.getD 3 0) 0 / prices.getD (idxs.getD 2 0) 0),
   Real.log (prices.getD (idxs.getD 4 0) 0 / prices.getD (idxs.getD 3 0) 0),
   Real.log (eod / prices.getD (idxs.getD 4 0) 0)]

/-- Embedding of calculate_realized_volatility (source lines 65-87).
Returns .ok none when the guard len(prices) < 6 fires (the None return,
the InsufficientObservations signal), .error () when np.random.choice
raises because the interior population len(prices) - 2 is below the sample
size 5, and otherwise the annualized trial volatility
np.sqrt(np.mean(log_returns ** 2)) * 16. -/
noncomputable def calculate_realized_volatility (prices : List ℝ) (sod eod : ℝ)
    (draw : List ℕ) : Except Unit (Option ℝ) :=
  if prices.length < 6 then .ok none
  else if prices.length - 2 < 5 then .error ()
  else .ok (some (Real.sqrt (listMean
    ((logReturns prices sod eod (random_indices draw)).map (fun r => r ^ 2))) * 16))

/-- Root mean square as monte_carlo_day computes it:
np.sqrt(np.mean(np.square(volatilities))). -/
noncomputable def rms (xs : List ℝ) : ℝ :=
  Real.sqrt (listMean (xs.map (fun v => v ^ 2)))

/-- The trial loop of monte_carlo_day (the list comprehension over
range(num_simulations)): runs one trial per draw, propagating the first
exception as the comprehension does. -/
noncomputable def runTrials (prices : List ℝ) (sod eod : ℝ) :
    List (List ℕ) → Except Unit (List (Option ℝ))
  | [] => .ok []
  | d :: ds => do
      let v ← calculate_realized_volatility prices sod eod d
      let vs ← runTrials prices sod eod ds
      return v :: vs

/-- Embedding of monte_carlo_day (source lines 89-104): runs the trials,
keeps the non-None results, and returns (date, rms) when any survive and
(date, None) otherwise. -/
noncomputable def monte_carlo_day (date : ℕ) (prices : List ℝ) (sod eod : ℝ)
    (draws : List (List ℕ)) : Except Unit (ℕ × Option ℝ) := do
  let volatilities ← runTrials prices sod eod draws
  let surviving := volatilities.filterMap id
  if surviving = [] then return (date, none)
  else return (date, some (rms surviving))

/-- The gather loop of monte_carlo_simulation: future.result() is called on
the futures in submission order, so the first exception raised inside any
unit of work propagates and aborts the whole batch. -/
noncomputable def collectResults : List DayEntry → Except Unit (List (ℕ × Option ℝ))
  | [] => .ok []
  | e :: es => do
      let r ← monte_carlo_day e.date e.prices e.sod e.eod e.draws
      let rs ← collectResults es
      return r :: rs

/-- Embedding of monte_carlo_simulation (source lines 106-133).  The pandas
groupby iterates the per-day groups in ascending date order, which the
insertionSort models; futures are then gathered in submission order and the
days whose volatility is None are dropped from the result list. -/
noncomputable def monte_carlo_simulation (days : List DayEntry) :
    Except Unit (List (ℕ × ℝ)) := do
  let grouped := List.insertionSort (fun a b : DayEntry => a.date ≤ b.date) days
  let rs ← collectResults grouped
  return rs.filterMap (fun dv => dv.2.map (fun v => (dv.1, v)))

instance : DecidableRel (fun a b : DayEntry => a.date ≤ b.date) :=
  fun a b => Nat.decLe a.date b.date

instance : IsTotal DayEntry (fun a b : DayEntry => a.date ≤ b.date) :=
  ⟨fun a b => Nat.le_total a.date b.date⟩

instance : IsTrans DayEntry (fun a b : DayEntry => a.date ≤ b.date) :=
  ⟨fun _ _ _ => Nat.le_trans⟩

/-- The trial-volatility formula exactly as the specification words it, for
already sorted interior indices i1 < i2 < i3 < i4 < i5: the square root of
the mean of the squares of the six chained log-returns, times the
annualization factor 16. -/
noncomputable def trial_volatility_spec (P : List ℝ) (sod eod : ℝ)
    (i1 i2 i3 i4 i5 : ℕ) : ℝ :=
  let r0 := Real.log (P.getD i1 0 / sod)
  let r1 := Real.log (P.getD i2 0 / P.getD i1 0)
  let r2 := Real.log (P.getD i3 0 / P.getD i2 0)
  let r3 := Real.log (P.getD i4 0 / P.getD i3 0)
  let r4 := Real.log (P.getD i5 0 / P.getD i4 0)
  let r5 := Real.log (eod / P.getD i5 0)
  Real.sqrt ((r0 ^ 2 + r1 ^ 2 + r2 ^ 2 + r3 ^ 2 + r4 ^ 2 + r5 ^ 2) / 6) * 16

/-- RMS aggregation exactly as the specification words it:
sqrt of the mean of the squared trial estimates. -/
noncomputable def rms_spec (xs : List ℝ) : ℝ :=
  Real.sqrt ((xs.map (fun v => v ^ 2)).sum / (xs.length : ℝ))

/-! Helper lemmas about the per-trial and per-day functions. -/

theorem calc_of_lt6 (prices : List ℝ) (sod eod : ℝ) (draw : List ℕ)
    (h : prices.length < 6) :
    calculate_realized_volatility prices sod eod draw = .ok none := by
  simp [calculate_realized_volatility, h]

theorem calc_of_ge7 (prices : List ℝ) (sod eod : ℝ) (draw : List ℕ)
    (h : 7 ≤ prices.length) :
    ∃ v, calculate_realized_volatility prices sod eod draw = .ok (some v) ∧ 0 ≤ v := by
  rw [calculate_realized_volatility, if_neg (by omega), if_neg (by omega)]
  exact ⟨_, rfl, mul_nonneg (Real.sqrt_nonneg _) (by norm_num)⟩

theorem runTrials_of_lt6 (prices : List ℝ) (sod eod : ℝ) (ds : List (List ℕ))
    (h : prices.length < 6) :
    runTrials prices sod eod ds = .ok (ds.map (fun _ => none)) := by
  induction ds with
  | nil => rfl
  | cons d ds ih =>
    rw [runTrials, calc_of_lt6 prices sod eod d h, ih]
    rfl

theorem runTrials_of_ge7 (prices : List ℝ) (sod eod : ℝ) (ds : List (List ℕ))
    (h : 7 ≤ prices.length) :
    ∃ vs, runTrials prices sod eod ds = .ok vs ∧ vs.length = ds.length ∧
      ∀ v ∈ vs, ∃ x, v = some x ∧ 0 ≤ x := by
  induction ds with
  | nil => exact ⟨[], rfl, rfl, by simp⟩
  | cons d ds ih =>
    obtain ⟨vs, hvs, hlen, hall⟩ := ih
    obtain ⟨x, hx, hx0⟩ := calc_of_ge7 prices sod eod d h
    refine ⟨some x :: vs, ?_, by simp [hlen], ?_⟩
    · rw [runTrials, hx, hvs]; rfl
    · intro v hv
      rcases List.mem_cons.1 hv with rfl | hv
      · exact ⟨x, rfl, hx0⟩
      · exact hall v hv

theorem filterMap_id_of_none {α : Type} (vs : List (Option α))
    (h : ∀ v ∈ vs, v = none) : vs.filterMap id = [] := by
  induction vs with
  | nil => rfl
  | cons v vs ih =>
    rw [h v (List.mem_cons_self v vs)]
    simp only [List.filterMap_cons, id]
    exact ih fun w hw => h w (List.mem_cons_of_mem v hw)

theorem monte_carlo_day_fst (date : ℕ) (prices : List ℝ) (sod eod : ℝ)
    (draws : List (List ℕ)) (r : ℕ × Option ℝ)
    (h : monte_carlo_day date prices sod eod draws = .ok r) : r.1 = date := by
  rw [monte_carlo_day] at h
  cases hr : runTrials prices sod eod draws with
  | error u => rw [hr] at h; simp [Bind.bind, Except.bind] at h
  | ok vs =>
    rw [hr] at h
    simp only [Bind.bind, Except.bind, pure, Except.pure] at h
    split at h <;> (simp only [Except.ok.injEq] at h; subst h; rfl)

theorem monte_carlo_day_of_lt6 (date : ℕ) (prices : List ℝ) (sod eod : ℝ)
    (draws : List (List ℕ)) (h : prices.length < 6) :
    monte_carlo_day date prices sod eod draws = .ok (date, none) := by
  rw [monte_carlo_day, runTrials_of_lt6 prices sod eod draws h]
  simp only [Bind.bind, Except.bind]
  rw [filterMap_id_of_none _ (by simp)]
  rfl

theorem monte_carlo_day_of_ge7 (date : ℕ) (prices : List ℝ) (sod eod : ℝ)
    (draws : List (List ℕ)) (h : 7 ≤ prices.length) (hne : draws ≠ []) :
    ∃ w, monte_carlo_day date prices sod eod draws = .ok (date, some w) ∧ 0 ≤ w := by
  obtain ⟨vs, hvs, hlen, hall⟩ := runTrials_of_ge7 prices sod eod draws h
  have hfne : vs.filterMap id ≠ [] := by
    cases vs with
    | nil =>
      cases draws with
      | nil => exact absurd rfl hne
      | cons d ds => simp at hlen
    | cons v vs =>
      obtain ⟨x, rfl, _⟩ := hall v (List.mem_cons_self v vs)
      simp [List.filterMap_cons]
  rw [monte_carlo_day, hvs]
  simp only [Bind.bind, Except.bind]
  rw [if_neg hfne]
  exact ⟨_, rfl, Real.sqrt_nonneg _⟩

/-! Theorems for the claims. -/

/-- Claim C1 (status code_bug): the specification states that a price
sequence with fewer than 7 observations, in particular exactly 6, makes a
trial return the InsufficientObservations signal.  The source guard is
len(prices) < 6, so a 6-observation day passes the guard and
np.random.choice(4, size=5, replace=False) raises a ValueError instead:
the trial raises rather than signalling.  This theorem evaluates the
embedded code at such a failing input, for every draw. -/
theorem claim_C1 : ∀ draw : List ℕ,
    calculate_realized_volatility [100, 101, 102, 103, 104, 105] 100 105 draw
      = .error () := by
  intro draw
  rfl

/-- Claim C4 (status confirmed): in a valid trial the 5 sampled indices,
after the processing of random_indices, are sorted strictly ascending
(hence pairwise distinct), there are exactly 5 of them, and each lies in
the interior range from 1 to n - 2. -/
theorem claim_C4 (n : ℕ) (draw : List ℕ) (hd : validDraw n draw) :
    (random_indices draw).Sorted (· < ·) ∧ (random_indices draw).Nodup ∧
    (random_indices draw).length = 5 ∧
    ∀ i ∈ random_indices draw, 1 ≤ i ∧ i ≤ n - 2 := by
  obtain ⟨hlen, hnodup, hbound⟩ := hd
  have hperm : List.Perm (random_indices draw) (draw.map (fun i => i + 1)) :=
    List.perm_insertionSort _ _
  have hmapnodup : (draw.map (fun i => i + 1)).Nodup :=
    hnodup.map fun a b hab => by omega
  have hnd : (random_indices draw).Nodup := hperm.nodup_iff.2 hmapnodup
  have hle : (random_indices draw).Sorted (· ≤ ·) :=
    List.sorted_insertionSort _ _
  refine ⟨hle.lt_of_le hnd, hnd, ?_, ?_⟩
  · rw [hperm.length_eq, List.length_map, hlen]
  · intro i hi
    have : i ∈ draw.map (fun i => i + 1) := hperm.mem_iff.1 hi
    obtain ⟨j, hj, rfl⟩ := List.mem_map.1 this
    have := hbound j hj
    omega

/-- Witness for claim C4 at a concrete valid draw. -/
theorem claim_C4_witness : validDraw 8 [4, 2, 0, 3, 1] ∧
    ((random_indices [4, 2, 0, 3, 1]).Sorted (· < ·) ∧
    (random_indices [4, 2, 0, 3, 1]).Nodup ∧
    (random_indices [4, 2, 0, 3, 1]).length = 5 ∧
    ∀ i ∈ random_indices [4, 2, 0, 3, 1], 1 ≤ i ∧ i ≤ 8 - 2) :=
  ⟨by decide, claim_C4 8 [4, 2, 0, 3, 1] (by decide)⟩

/-- Claim C5 (status confirmed): a day all of whose trials signal
InsufficientObservations (which happens exactly when the day has at most 5
observations) aggregates to (date, None), and such a day is omitted from
the final output collection of the batch rather than kept with a null
placeholder. -/
theorem claim_C5 (date : ℕ) (prices : List ℝ) (sod eod : ℝ)
    (draws : List (List ℕ)) (h : prices.length ≤ 5) :
    monte_carlo_day date prices sod eod draws = .ok (date, none) ∧
    monte_carlo_simulation [⟨date, prices, sod, eod, draws⟩] = .ok [] := by
  have hday := monte_carlo_day_of_lt6 date prices sod eod draws (by omega)
  refine ⟨hday, ?_⟩
  rw [monte_carlo_simulation]
  simp only [List.insertionSort, List.orderedInsert]
  rw [collectResults]
  simp only [Bind.bind, Except.bind, hday]
  rw [collectResults]
  rfl

/-- Witness for claim C5 at a concrete 3-observation day. -/
theorem claim_C5_witness : ([100, 101, 102] : List ℝ).length ≤ 5 ∧
    (monte_carlo_day 0 [100, 101, 102] 100 102 [[0], [1]] = .ok (0, none) ∧
    monte_carlo_simulation [⟨0, [100, 101, 102], 100, 102, [[0], [1]]⟩] = .ok []) :=
  ⟨by simp, claim_C5 0 [100, 101, 102] 100 102 [[0], [1]] (by simp)⟩

/-- Claim C10 (status confirmed): whenever the per-day Monte Carlo runner
returns normally, the first component of the returned pair is exactly the
date it was given, whether or not an estimate was produced. -/
theorem claim_C10 (date : ℕ) (prices : List ℝ) (sod eod : ℝ)
    (draws : List (List ℕ)) (r : ℕ × Option ℝ)
    (h : monte_carlo_day date prices sod eod draws = .ok r) : r.1 = date :=
  monte_carlo_day_fst date prices sod eod draws r h

/-- Witness for claim C10 at a concrete 7-observation day. -/
theorem claim_C10_witness : ∃ r, monte_carlo_day 3
    [100, 101, 102, 103, 104, 105, 106] 100 106 [[0, 1, 2, 3, 4]] = .ok r ∧
    r.1 = 3 :=
  ⟨_, rfl, claim_C10 3 [100, 101, 102, 103, 104, 105, 106] 100 106
    [[0, 1, 2, 3, 4]] _ rfl⟩

/-- Claim C3 (status confirmed): a valid trial on a day with at least 7
observations returns exactly the value the specification prescribes: the
square root of the mean of the squares of the six chained log-returns at
the sorted sampled indices i1 < i2 < i3 < i4 < i5, times the annualization
factor 16. -/
theorem claim_C3 (prices : List ℝ) (sod eod : ℝ) (draw : List ℕ)
    (i1 i2 i3 i4 i5 : ℕ) (h7 : 7 ≤ prices.length)
    (hd : validDraw prices.length draw)
    (hs : random_indices draw = [i1, i2, i3, i4, i5]) :
    calculate_realized_volatility prices sod eod draw
      = .ok (some (trial_volatility_spec prices sod eod i1 i2 i3 i4 i5)) := by
  rw [calculate_realized_volatility, if_neg (by omega), if_neg (by omega), hs]
  rw [logReturns, trial_volatility_spec, listMean]
  simp only [List.getD_cons_zero, List.getD_cons_succ, List.map_cons, List.map_nil,
    List.sum_cons, List.sum_nil, List.length_cons, List.length_nil]
  norm_num
  ring_nf

/-- Witness for claim C3: a concrete 7-observation day and a concrete
valid draw whose sorted shifted indices are 1, 2, 3, 4, 5. -/
theorem claim_C3_witness :
    7 ≤ ([100, 101, 102, 103, 104, 105, 106] : List ℝ).length ∧
    validDraw ([100, 101, 102, 103, 104, 105, 106] : List ℝ).length [4, 2, 0, 3, 1] ∧
    random_indices [4, 2, 0, 3, 1] = [1, 2, 3, 4, 5] ∧
    calculate_realized_volatility [100, 101, 102, 103, 104, 105, 106] 100 106
        [4, 2, 0, 3, 1]
      = .ok (some (trial_volatility_spec [100, 101, 102, 103, 104, 105, 106]
          100 106 1 2 3 4 5)) :=
  ⟨by simp, by decide, by decide,
    claim_C3 [100, 101, 102, 103, 104, 105, 106] 100 106 [4, 2, 0, 3, 1]
      1 2 3 4 5 (by simp) (by decide) (by decide)⟩

/-- Claim C6 (status confirmed): when the trial loop returns normally and at
least one trial survives (is not None), the per-day aggregate is exactly
the specification RMS formula sqrt(mean(trial squared)) over the surviving
trials, those the filterMap keeps. -/
theorem claim_C6 (date : ℕ) (prices : List ℝ) (sod eod : ℝ)
    (draws : List (List ℕ)) (ts : List (Option ℝ))
    (hts : runTrials prices sod eod draws = .ok ts)
    (hne : ts.filterMap id ≠ []) :
    monte_carlo_day date prices sod eod draws
      = .ok (date, some (rms_spec (ts.filterMap id))) := by
  rw [monte_carlo_day, hts]
  simp only [Bind.bind, Except.bind]
  rw [if_neg hne]
  have heq : rms (ts.filterMap id) = rms_spec (ts.filterMap id) := by
    rw [rms, rms_spec, listMean, List.length_map]
  rw [heq]
  rfl

/-- Witness for claim C6 at a concrete day with two surviving trials. -/
theorem claim_C6_witness : ∃ ts,
    runTrials [100, 101, 102, 103, 104, 105, 106] 100 106
      [[0, 1, 2, 3, 4], [4, 3, 2, 1, 0]] = .ok ts ∧
    ts.filterMap id ≠ [] ∧
    monte_carlo_day 0 [100, 101, 102, 103, 104, 105, 106] 100 106
        [[0, 1, 2, 3, 4], [4, 3, 2, 1, 0]]
      = .ok (0, some (rms_spec (ts.filterMap id))) := by
  refine ⟨_, rfl, ?_, claim_C6 0 _ _ _ _ _ rfl ?_⟩ <;> simp

/-- Claim C8 (status confirmed): on a day with at least 7 observations,
positive prices and anchors, and at least one trial, every trial volatility
and the aggregated per-day estimate exist and are non-negative.  Finiteness
is inherent to the real-number idealization of the float arithmetic: every
value the embedding produces is a real number. -/
theorem claim_C8 (date : ℕ) (prices : List ℝ) (sod eod : ℝ)
    (draws : List (List ℕ)) (h7 : 7 ≤ prices.length)
    (hpos : ∀ p ∈ prices, 0 < p) (hsod : 0 < sod) (heod : 0 < eod)
    (hne : draws ≠ []) :
    (∀ d ∈ draws, ∃ v,
      calculate_realized_volatility prices sod eod d = .ok (some v) ∧ 0 ≤ v) ∧
    ∃ w, monte_carlo_day date prices sod eod draws = .ok (date, some w) ∧ 0 ≤ w :=
  ⟨fun d _ => calc_of_ge7 prices sod eod d h7,
   monte_carlo_day_of_ge7 date prices sod eod draws h7 hne⟩

/-- Witness for claim C8 at a concrete positive 7-observation day. -/
theorem claim_C8_witness :
    7 ≤ ([100, 101, 102, 103, 104, 105, 106] : List ℝ).length ∧
    (∀ p ∈ ([100, 101, 102, 103, 104, 105, 106] : List ℝ), 0 < p) ∧
    (0 : ℝ) < 100 ∧ (0 : ℝ) < 106 ∧ ([[0, 1, 2, 3, 4]] : List (List ℕ)) ≠ [] ∧
    ((∀ d ∈ ([[0, 1, 2, 3, 4]] : List (List ℕ)), ∃ v,
      calculate_realized_volatility [100, 101, 102, 103, 104, 105, 106] 100 106 d
        = .ok (some v) ∧ 0 ≤ v) ∧
    ∃ w, monte_carlo_day 9 [100, 101, 102, 103, 104, 105, 106] 100 106
        [[0, 1, 2, 3, 4]] = .ok (9, some w) ∧ 0 ≤ w) := by
  refine ⟨by simp, ?_, by norm_num, by norm_num, by simp, ?_⟩
  · intro p hp
    simp only [List.mem_cons, List.not_mem_nil, or_false] at hp
    rcases hp with rfl | rfl | rfl | rfl | rfl | rfl | rfl <;> norm_num
  · refine claim_C8 9 _ _ _ _ (by simp) ?_ (by norm_num) (by norm_num) (by simp)
    intro p hp
    simp only [List.mem_cons, List.not_mem_nil, or_false] at hp
    rcases hp with rfl | rfl | rfl | rfl | rfl | rfl | rfl <;> norm_num

/-- Claim C9 (status confirmed): the RMS aggregation used by the per-day
aggregator is never below zero, and appending one further trial value that
is at least the current RMS never decreases the RMS. -/
theorem claim_C9 (xs : List ℝ) (v : ℝ) (hne : xs ≠ []) (hv : rms xs ≤ v) :
    0 ≤ rms xs ∧ rms xs ≤ rms (xs ++ [v]) := by
  refine ⟨Real.sqrt_nonneg _, ?_⟩
  have hrx : rms xs = Real.sqrt ((xs.map (fun u => u ^ 2)).sum / (xs.length : ℝ)) := by
    rw [rms, listMean, List.length_map]
  have hry : rms (xs ++ [v])
      = Real.sqrt (((xs.map (fun u => u ^ 2)).sum + v ^ 2) / ((xs.length : ℝ) + 1)) := by
    rw [rms, listMean, List.length_map, List.map_append, List.sum_append]
    push_cast [List.length_append]
    norm_num
  set S : ℝ := (xs.map (fun u => u ^ 2)).sum with hSdef
  have hS0 : 0 ≤ S := by
    refine List.sum_nonneg ?_
    intro x hx
    obtain ⟨y, _, rfl⟩ := List.mem_map.1 hx
    positivity
  have hlen : 0 < (xs.length : ℝ) := by
    have : xs.length ≠ 0 := fun h0 => hne (List.eq_nil_of_length_eq_zero h0)
    positivity
  rw [hrx] at hv ⊢
  rw [hry]
  refine Real.sqrt_le_sqrt ?_
  have hv2 : S / (xs.length : ℝ) ≤ v ^ 2 := by
    have h1 : S / (xs.length : ℝ) = Real.sqrt (S / (xs.length : ℝ)) ^ 2 :=
      (Real.sq_sqrt (by positivity)).symm
    rw [h1]
    exact pow_le_pow_left (Real.sqrt_nonneg _) hv 2
  rw [div_le_div_iff hlen (by positivity)]
  have hS : S ≤ v ^ 2 * (xs.length : ℝ) := (div_le_iff hlen).1 hv2
  nlinarith [hS]

/-- Witness for claim C9 with the singleton list and the larger value 2. -/
theorem claim_C9_witness : ([(1 : ℝ)] : List ℝ) ≠ [] ∧ rms [(1 : ℝ)] ≤ 2 ∧
    0 ≤ rms [(1 : ℝ)] ∧ rms [(1 : ℝ)] ≤ rms ([(1 : ℝ)] ++ [2]) := by
  have h1 : ([(1 : ℝ)] : List ℝ) ≠ [] := by simp
  have h2 : rms [(1 : ℝ)] ≤ 2 := by norm_num [rms, listMean]
  obtain ⟨ha, hb⟩ := claim_C9 [(1 : ℝ)] 2 h1 h2
  exact ⟨h1, h2, ha, hb⟩

/-- Claim C2, counterexample: the claim states that a fault raised during
the execution of one day never aborts the batch.  In the source there is no
exception handling around future.result(), so one day with exactly 6
observations (whose trial raises a ValueError inside np.random.choice)
aborts the whole simulation, losing the other day as well. -/
theorem claim_C2_counterexample : monte_carlo_simulation
    [⟨0, [100, 101, 102, 103, 104, 105, 106], 100, 106, [[0, 1, 2, 3, 4]]⟩,
     ⟨1, [100, 101, 102, 103, 104, 105], 100, 105, [[0, 1, 2, 3, 4]]⟩]
      = .error () := rfl

/-! Helper lemmas about the gather loop, used for the batch-level claims. -/

theorem monte_carlo_day_nil_draws (date : ℕ) (prices : List ℝ) (sod eod : ℝ) :
    monte_carlo_day date prices sod eod [] = .ok (date, none) := rfl

theorem monte_carlo_day_total (e : DayEntry) (h : e.prices.length ≠ 6) :
    ∃ r, monte_carlo_day e.date e.prices e.sod e.eod e.draws = .ok r := by
  rcases Nat.lt_or_ge e.prices.length 6 with hlt | hge
  · exact ⟨(e.date, none), monte_carlo_day_of_lt6 e.date e.prices e.sod e.eod e.draws hlt⟩
  · cases hd : e.draws with
    | nil => exact ⟨(e.date, none), monte_carlo_day_nil_draws e.date e.prices e.sod e.eod⟩
    | cons d ds =>
      obtain ⟨w, hw, _⟩ := monte_carlo_day_of_ge7 e.date e.prices e.sod e.eod
        (d :: ds) (by omega) (by simp)
      exact ⟨(e.date, some w), hd ▸ hw⟩

theorem collectResults_total (entries : List DayEntry)
    (h : ∀ e ∈ entries, ∃ r, monte_carlo_day e.date e.prices e.sod e.eod e.draws = .ok r) :
    ∃ rs, collectResults entries = .ok rs := by
  induction entries with
  | nil => exact ⟨[], rfl⟩
  | cons e es ih =>
    obtain ⟨r, hr⟩ := h e (List.mem_cons_self e es)
    obtain ⟨rs, hrs⟩ := ih fun e' he' => h e' (List.mem_cons_of_mem e he')
    refine ⟨r :: rs, ?_⟩
    rw [collectResults, hr, hrs]
    rfl

theorem collectResults_mem (entries : List DayEntry) (rs : List (ℕ × Option ℝ))
    (h : collectResults entries = .ok rs) :
    ∀ e ∈ entries, ∃ r ∈ rs,
      monte_carlo_day e.date e.prices e.sod e.eod e.draws = .ok r := by
  induction entries generalizing rs with
  | nil => simp
  | cons e es ih =>
    rw [collectResults] at h
    cases hr : monte_carlo_day e.date e.prices e.sod e.eod e.draws with
    | error u => rw [hr] at h; simp [Bind.bind, Except.bind] at h
    | ok r =>
      rw [hr] at h
      cases hrs : collectResults es with
      | error u => rw [hrs] at h; simp [Bind.bind, Except.bind] at h
      | ok rs2 =>
        rw [hrs] at h
        simp only [Bind.bind, Except.bind, pure, Except.pure, Except.ok.injEq] at h
        subst h
        intro e' he'
        rcases List.mem_cons.1 he' with rfl | he'
        · exact ⟨r, List.mem_cons_self r rs2, hr⟩
        · obtain ⟨r', hr'mem, hr'⟩ := ih rs2 hrs e' he'
          exact ⟨r', List.mem_cons_of_mem r hr'mem, hr'⟩

theorem collectResults_mem_rev (entries : List DayEntry) (rs : List (ℕ × Option ℝ))
    (h : collectResults entries = .ok rs) :
    ∀ r ∈ rs, ∃ e ∈ entries,
      monte_carlo_day e.date e.prices e.sod e.eod e.draws = .ok r := by
  induction entries generalizing rs with
  | nil =>
    rw [collectResults] at h
    simp only [Except.ok.injEq] at h
    subst h
    simp
  | cons e es ih =>
    rw [collectResults] at h
    cases hr : monte_carlo_day e.date e.prices e.sod e.eod e.draws with
    | error u => rw [hr] at h; simp [Bind.bind, Except.bind] at h
    | ok r =>
      rw [hr] at h
      cases hrs : collectResults es with
      | error u => rw [hrs] at h; simp [Bind.bind, Except.bind] at h
      | ok rs2 =>
        rw [hrs] at h
        simp only [Bind.bind, Except.bind, pure, Except.pure, Except.ok.injEq] at h
        subst h
        intro r' hr'
        rcases List.mem_cons.1 hr' with rfl | hr'
        · exact ⟨e, List.mem_cons_self e es, hr⟩
        · obtain ⟨e', he'mem, he'⟩ := ih rs2 hrs r' hr'
          exact ⟨e', List.mem_cons_of_mem e he'mem, he'⟩

theorem collectResults_dates (entries : List DayEntry) (rs : List (ℕ × Option ℝ))
    (h : collectResults entries = .ok rs) :
    rs.map Prod.fst = entries.map DayEntry.date := by
  induction entries generalizing rs with
  | nil =>
    rw [collectResults] at h
    simp only [Except.ok.injEq] at h
    subst h
    rfl
  | cons e es ih =>
    rw [collectResults] at h
    cases hr : monte_carlo_day e.date e.prices e.sod e.eod e.draws with
    | error u => rw [hr] at h; simp [Bind.bind, Except.bind] at h
    | ok r =>
      rw [hr] at h
      cases hrs : collectResults es with
      | error u => rw [hrs] at h; simp [Bind.bind, Except.bind] at h
      | ok rs2 =>
        rw [hrs] at h
        simp only [Bind.bind, Except.bind, pure, Except.pure, Except.ok.injEq] at h
        subst h
        simp only [List.map_cons]
        rw [ih rs2 hrs,
          monte_carlo_day_fst e.date e.prices e.sod e.eod e.draws r hr]

theorem filterMap_fst_sublist (rs : List (ℕ × Option ℝ)) :
    List.Sublist
      ((rs.filterMap (fun dv => dv.2.map (fun v => (dv.1, v)))).map Prod.fst)
      (rs.map Prod.fst) := by
  induction rs with
  | nil => simp
  | cons dv rs ih =>
    rcases dv with ⟨d, v?⟩
    cases v? with
    | none =>
      simp only [List.filterMap_cons, Option.map_none', List.map_cons]
      exact ih.cons d
    | some v =>
      simp only [List.filterMap_cons, Option.map_some', List.map_cons]
      exact ih.cons₂ d

/-- Claim C7 (status confirmed): with pairwise distinct dates, the final
collection returned by the batch runner is sorted strictly ascending by
date.  In the source this holds because pandas groupby iterates the day
groups in ascending date order (modelled by the insertionSort), the futures
are gathered in submission order independently of completion order, and
dropping the None days preserves the order. -/
theorem claim_C7 (days : List DayEntry) (hnd : (days.map DayEntry.date).Nodup)
    (out : List (ℕ × ℝ)) (h : monte_carlo_simulation days = .ok out) :
    (out.map Prod.fst).Sorted (fun a b => a < b) := by
  rw [monte_carlo_simulation] at h
  cases hrs : collectResults
      (List.insertionSort (fun a b : DayEntry => a.date ≤ b.date) days) with
  | error u => rw [hrs] at h; simp [Bind.bind, Except.bind] at h
  | ok rs =>
    rw [hrs] at h
    simp only [Bind.bind, Except.bind, pure, Except.pure, Except.ok.injEq] at h
    subst h
    have hdates : rs.map Prod.fst
        = (List.insertionSort (fun a b : DayEntry => a.date ≤ b.date) days).map
            DayEntry.date :=
      collectResults_dates _ rs hrs
    have hsorted : ((List.insertionSort (fun a b : DayEntry => a.date ≤ b.date)
        days).map DayEntry.date).Sorted (fun a b => a ≤ b) :=
      List.pairwise_map.2 (List.sorted_insertionSort _ days)
    have hperm : List.Perm
        (List.insertionSort (fun a b : DayEntry => a.date ≤ b.date) days) days :=
      List.perm_insertionSort _ days
    have hnodup : ((List.insertionSort (fun a b : DayEntry => a.date ≤ b.date)
        days).map DayEntry.date).Nodup :=
      ((hperm.map DayEntry.date).nodup_iff).2 hnd
    have hsub := filterMap_fst_sublist rs
    rw [hdates] at hsub
    exact List.Sorted.lt_of_le (hsorted.sublist hsub) (hnodup.sublist hsub)

/-- Witness for claim C7: two valid days submitted with dates out of order
still come out ascending. -/
theorem claim_C7_witness :
    (([⟨1, [100, 101, 102, 103, 104, 105, 106], 100, 106, [[0, 1, 2, 3, 4]]⟩,
       ⟨0, [100, 101, 102, 103, 104, 105, 106, 107], 100, 107, [[0, 1, 2, 3, 4]]⟩] :
      List DayEntry).map DayEntry.date).Nodup ∧
    ∃ out, monte_carlo_simulation
      [⟨1, [100, 101, 102, 103, 104, 105, 106], 100, 106, [[0, 1, 2, 3, 4]]⟩,
       ⟨0, [100, 101, 102, 103, 104, 105, 106, 107], 100, 107, [[0, 1, 2, 3, 4]]⟩]
        = .ok out ∧
    (out.map Prod.fst).Sorted (fun a b => a < b) := by
  refine ⟨by simp, _, rfl, ?_⟩
  exact claim_C7
    [⟨1, [100, 101, 102, 103, 104, 105, 106], 100, 106, [[0, 1, 2, 3, 4]]⟩,
     ⟨0, [100, 101, 102, 103, 104, 105, 106, 107], 100, 107, [[0, 1, 2, 3, 4]]⟩]
    (by simp) _ rfl

/-- Claim C2, amended (status corrected): a day whose trials produce no
estimate (all trials signal InsufficientObservations, which happens for
days with fewer than 6 observations, or no trial runs at all) is excluded
from the result set while the remaining days are still processed, and as
long as no unit of work raises (no day has exactly 6 observations) the
batch returns normally; but a fault raised during the execution of one
unit propagates uncaught through future.result() and aborts the whole
batch, as the counterexample shows. -/
theorem claim_C2 (days : List DayEntry)
    (h6 : ∀ e ∈ days, e.prices.length ≠ 6)
    (hnd : (days.map DayEntry.date).Nodup) :
    ∃ out, monte_carlo_simulation days = .ok out ∧
      (∀ e ∈ days, e.prices.length < 6 → e.date ∉ out.map Prod.fst) ∧
      (∀ e ∈ days, 7 ≤ e.prices.length → e.draws ≠ [] → e.date ∈ out.map Prod.fst) := by
  have hperm : List.Perm
      (List.insertionSort (fun a b : DayEntry => a.date ≤ b.date) days) days :=
    List.perm_insertionSort _ days
  have htotal : ∀ e ∈ List.insertionSort (fun a b : DayEntry => a.date ≤ b.date) days,
      ∃ r, monte_carlo_day e.date e.prices e.sod e.eod e.draws = .ok r :=
    fun e he => monte_carlo_day_total e (h6 e (hperm.mem_iff.1 he))
  obtain ⟨rs, hrs⟩ := collectResults_total _ htotal
  refine ⟨rs.filterMap (fun dv => dv.2.map (fun v => (dv.1, v))), ?_, ?_, ?_⟩
  · rw [monte_carlo_simulation, hrs]
    rfl
  · intro e he hlt hmem
    obtain ⟨p, hpmem, hpfst⟩ := List.mem_map.1 hmem
    obtain ⟨dv, hdvmem, hdv⟩ := List.mem_filterMap.1 hpmem
    obtain ⟨v, hv2, hvp⟩ := Option.map_eq_some'.1 hdv
    obtain ⟨e', he'mem, he'⟩ := collectResults_mem_rev _ rs hrs dv hdvmem
    have hfst : dv.1 = e'.date :=
      monte_carlo_day_fst e'.date e'.prices e'.sod e'.eod e'.draws dv he'
    have hdate : e'.date = e.date := by
      rw [← hfst, ← hpfst]
      exact congrArg Prod.fst hvp
    have he'days : e' ∈ days := hperm.mem_iff.1 he'mem
    have : e' = e :=
      List.inj_on_of_nodup_map hnd he'days he hdate
    subst this
    rw [monte_carlo_day_of_lt6 e'.date e'.prices e'.sod e'.eod e'.draws hlt] at he'
    simp only [Except.ok.injEq] at he'
    rw [← he'] at hv2
    simp at hv2
  · intro e he h7 hdne
    obtain ⟨w, hw, _⟩ :=
      monte_carlo_day_of_ge7 e.date e.prices e.sod e.eod e.draws h7 hdne
    obtain ⟨r, hrmem, hr⟩ := collectResults_mem _ rs hrs e (hperm.mem_iff.2 he)
    rw [hw] at hr
    simp only [Except.ok.injEq] at hr
    refine List.mem_map.2 ⟨(e.date, w), ?_, rfl⟩
    refine List.mem_filterMap.2 ⟨r, hrmem, ?_⟩
    rw [← hr]
    rfl

/-- Witness for the amended claim C2: a valid 7-observation day together
with a 3-observation day; no day has exactly 6 observations so the batch
completes, the short day is excluded and the valid day is kept. -/
theorem claim_C2_witness :
    (∀ e ∈ ([⟨0, [100, 101, 102, 103, 104, 105, 106], 100, 106, [[0, 1, 2, 3, 4]]⟩,
        ⟨1, [100, 101, 102], 100, 102, [[0]]⟩] : List DayEntry),
      e.prices.length ≠ 6) ∧
    (([⟨0, [100, 101, 102, 103, 104, 105, 106], 100, 106, [[0, 1, 2, 3, 4]]⟩,
        ⟨1, [100, 101, 102], 100, 102, [[0]]⟩] : List DayEntry).map
      DayEntry.date).Nodup ∧
    ∃ out, monte_carlo_simulation
      [⟨0, [100, 101, 102, 103, 104, 105, 106], 100, 106, [[0, 1, 2, 3, 4]]⟩,
       ⟨1, [100, 101, 102], 100, 102, [[0]]⟩] = .ok out ∧
      (∀ e ∈ ([⟨0, [100, 101, 102, 103, 104, 105, 106], 100, 106, [[0, 1, 2, 3, 4]]⟩,
          ⟨1, [100, 101, 102], 100, 102, [[0]]⟩] : List DayEntry),
        e.prices.length < 6 → e.date ∉ out.map Prod.fst) ∧
      (∀ e ∈ ([⟨0, [100, 101, 102, 103, 104, 105, 106], 100, 106, [[0, 1, 2, 3, 4]]⟩,
          ⟨1, [100, 101, 102], 100, 102, [[0]]⟩] : List DayEntry),
        7 ≤ e.prices.length → e.draws ≠ [] → e.date ∈ out.map Prod.fst) := by
  have h6 : ∀ e ∈ ([⟨0, [100, 101, 102, 103, 104, 105, 106], 100, 106, [[0, 1, 2, 3, 4]]⟩,
      ⟨1, [100, 101, 102], 100, 102, [[0]]⟩] : List DayEntry),
      e.prices.length ≠ 6 := by
    intro e he
    rcases List.mem_cons.1 he with rfl | he
    · simp
    · rcases List.mem_cons.1 he with rfl | he
      · simp
      · simp at he
  have hnd : (([⟨0, [100, 101, 102, 103, 104, 105, 106], 100, 106, [[0, 1, 2, 3, 4]]⟩,
      ⟨1, [100, 101, 102], 100, 102, [[0]]⟩] : List DayEntry).map
      DayEntry.date).Nodup := by simp
  exact ⟨h6, hnd, claim_C2 _ h6 hnd⟩

end RealizedVol
